import Mathlib

/-!
Shallow embedding of `bittensor/metagraph.py`.

Conventions of the embedding:
* Python floats are modelled as exact rationals (`ℚ`); Python ints as `ℤ`
  (or `ℕ` where the source only ever holds non-negative counters).
* Public keys are opaque strings (`Pk`).
* Python dicts used as identity maps (`_index_for_pubkey`, `_pubkey_for_index`,
  `_index_for_uid`) are modelled as total functions into `Option`.
* The two dicts built inside `Metagraph._wait_for_weights_inclusion.equal`
  are modelled concretely as insertion-ordered association lists with
  overwrite-in-place on key collision (Python dict semantics).
* Fallible Python code (exceptions) is modelled with `Except PyErr`.
* Remote chain queries are suspension points whose results are passed in as
  explicit data (a `PollData` for one peer poll; a response stream
  `ℕ → List Pk × List ℤ` for the weight-confirmation polls).
-/

abbrev Pk := String

instance {ε α : Type _} [DecidableEq ε] [DecidableEq α] : DecidableEq (Except ε α) := fun a b =>
  match a, b with
  | .error e, .error f =>
      if h : e = f then .isTrue (congrArg Except.error h)
      else .isFalse (fun hh => h (Except.error.inj hh))
  | .error _, .ok _ => .isFalse (fun hh => Except.noConfusion hh)
  | .ok _, .error _ => .isFalse (fun hh => Except.noConfusion hh)
  | .ok a, .ok b =>
      if h : a = b then .isTrue (congrArg Except.ok h)
      else .isFalse (fun hh => h (Except.ok.inj hh))

/-- Python exception kinds that the modelled code can raise. -/
inductive PyErr where
  | valueError
  | keyError
  | indexError
  | zeroDivisionError
  deriving DecidableEq, Repr

/-- `bittensor_pb2.Neuron` as constructed by `metagraph.py`: version, public
key, address, port.  The source converts the chain's integer ip to a dotted
string via `netaddr`; the conversion is injective, so the address is kept here
as the raw integer. -/
structure Neuron where
  version : String
  public_key : Pk
  address : ℕ
  port : ℕ
  deriving DecidableEq, Repr

/-- The per-peer data returned by the five chain sub-queries inside
`Metagraph._poll_pubkey` (`get_stake`, `get_last_emit_data`, `neurons`,
`weight_keys`, `weight_vals`). -/
structure PollData where
  stake : ℤ
  emit : ℤ
  ip : ℕ
  port : ℕ
  w_keys : List Pk
  w_vals : List ℤ
  deriving DecidableEq, Repr

/-- The local state cache of `Metagraph` (`self._n`, `self._next_uid`,
`self._uids`, `self._stake`, `self._emit`, `self._neuron_weights`,
`self._weight_pubkeys`, `self._weight_vals`, `self._neurons`,
`self._index_for_uid`, `self._index_for_pubkey`, `self._pubkey_for_index`). -/
structure Cache where
  n : ℕ
  next_uid : ℕ
  uids : List ℕ
  stake : List ℤ
  emit : List ℤ
  neuron_weights : List ℤ
  weight_pubkeys : List (List Pk)
  weight_vals : List (List ℤ)
  neurons : List Neuron
  index_for_uid : ℕ → Option ℕ
  index_for_pubkey : Pk → Option ℕ
  pubkey_for_index : ℕ → Option Pk

/-- The cache as seeded in `Metagraph.__init__`: the self peer at index 0 with
uid 0.  The config-derived neuron fields (version, address, port) are fixed
arbitrarily here since no claim depends on them. -/
def initCache (selfPk : Pk) : Cache where
  n := 1
  next_uid := 1
  uids := [0]
  stake := [0]
  emit := [0]
  neuron_weights := [1]
  weight_pubkeys := [[selfPk]]
  weight_vals := [[1]]
  neurons := [{ version := "", public_key := selfPk, address := 0, port := 0 }]
  index_for_uid := fun u => if u = 0 then some 0 else none
  index_for_pubkey := fun k => if k = selfPk then some 0 else none
  pubkey_for_index := fun i => if i = 0 then some selfPk else none

/-- The neuron proto built inside `Metagraph._poll_pubkey` from the polled
info (version is the library version constant, fixed to `""` here). -/
def mkNeuron (pk : Pk) (d : PollData) : Neuron :=
  { version := "", public_key := pk, address := d.ip, port := d.port }

/-- `Metagraph._poll_pubkey`.  `r = none` means some sub-query raised (the
exception is caught and logged by the source, so the function still returns a
cache).  Faithful to the source, the allocation of a dense index and uid for a
previously-unseen pubkey happens BEFORE the fallible queries: `self._n`,
`self._next_uid`, `self._index_for_pubkey` and `self._pubkey_for_index` are
mutated outside the `try` block; the parallel arrays are only appended inside
it.  For a known peer the source assigns each array at `index`; when `index`
is out of range Python raises IndexError, which the surrounding `except`
catches leaving the cache unchanged — since all arrays always share one
length, `List.set`'s out-of-range no-op yields the same cache.  The metrics
write (`tbwriter.write_network_data`) after the mutations is fire-and-forget
and not modelled. -/
def pollPubkey (c : Cache) (pk : Pk) (r : Option PollData) : Cache :=
  match c.index_for_pubkey pk with
  | some index =>
      match r with
      | none => c
      | some d =>
          { c with
            neurons := c.neurons.set index (mkNeuron pk d)
            stake := c.stake.set index d.stake
            emit := c.emit.set index d.emit
            weight_pubkeys := c.weight_pubkeys.set index d.w_keys
            weight_vals := c.weight_vals.set index d.w_vals }
  | none =>
      let index := c.n
      let uid := c.next_uid
      let c1 : Cache :=
        { c with
          n := c.n + 1
          next_uid := c.next_uid + 1
          index_for_pubkey := fun k => if k = pk then some index else c.index_for_pubkey k
          pubkey_for_index := fun i => if i = index then some pk else c.pubkey_for_index i }
      match r with
      | none => c1
      | some d =>
          { c1 with
            neurons := c1.neurons ++ [mkNeuron pk d]
            stake := c1.stake ++ [d.stake]
            emit := c1.emit ++ [d.emit]
            weight_pubkeys := c1.weight_pubkeys ++ [d.w_keys]
            weight_vals := c1.weight_vals ++ [d.w_vals]
            uids := c1.uids ++ [uid]
            index_for_uid := fun u => if u = uid then some index else c1.index_for_uid u }

/-- The caches reachable from construction by any sequence of per-peer polls
(each sync pass is a sequence of `_poll_pubkey` calls; the allocation section
contains no await, so under the cooperative scheduler the calls serialize). -/
inductive Reachable (selfPk : Pk) : Cache → Prop where
  | init : Reachable selfPk (initCache selfPk)
  | step (c : Cache) (pk : Pk) (r : Option PollData) :
      Reachable selfPk c → Reachable selfPk (pollPubkey c pk r)

/-- `TorchChainState` (the snapshot object).  The `state` field models the
dynamically-added attribute that `Metagraph._cache_to_state` assigns via
`state.state = torch.tensor(...)`; it does not exist after `__init__`. -/
structure TorchChainState where
  block : ℤ
  n : ℕ
  uids : List ℕ
  indices : List ℕ
  stake : List ℤ
  emit : List ℤ
  W : List (List ℚ)
  neurons : List Neuron
  state : Option (List ℤ)
  deriving DecidableEq, Repr

/-- `TorchChainState.__init__`. -/
def TorchChainState.init : TorchChainState where
  block := 0
  n := 0
  uids := []
  indices := []
  stake := []
  emit := []
  W := [[]]
  neurons := []
  state := none

/-- `TorchChainState.set_weights`: raises ValueError when the vector length
differs from `self.n`, before the assignment `self.W[0,:] = weights`.  The
method touches no chain client (none is in scope in the source class). -/
def TorchChainState.set_weights (s : TorchChainState) (weights : List ℚ) :
    Except PyErr TorchChainState :=
  if weights.length ≠ s.n then .error .valueError
  else .ok { s with W := s.W.set 0 weights }

/-- The inner loop of `Metagraph._cache_to_state` filling row `i` of
`weights_numpy`: for each `(k, val)` pair of the row's weight-list, if `k` is
a known pubkey the source computes `float(val) / float(val_sum)` (Python
raises ZeroDivisionError when `val_sum` is zero) and stores it at column `j`
(numpy raises IndexError when `j` is out of bounds).  `S` is `val_sum`, the
sum of ALL values of the row's list, computed before the loop. -/
def buildRowGo (c : Cache) (S : ℤ) : List (Pk × ℤ) → List ℚ → Except PyErr (List ℚ)
  | [], row => .ok row
  | kv :: rest, row =>
      match c.index_for_pubkey kv.1 with
      | none => buildRowGo c S rest row
      | some j =>
          if S = 0 then .error .zeroDivisionError
          else if j < c.n then buildRowGo c S rest (row.set j ((kv.2 : ℚ) / (S : ℚ)))
          else .error .indexError

/-- Row `i` of the weight matrix as built by `Metagraph._cache_to_state` from
the row's cached weight-list. -/
def buildRow (c : Cache) (keys : List Pk) (vals : List ℤ) : Except PyErr (List ℚ) :=
  buildRowGo c vals.sum (keys.zip vals) (List.replicate c.n 0)

/-- The row loop of `Metagraph._cache_to_state` over `range(state.n)`;
`self._weight_pubkeys[i]` / `self._weight_vals[i]` raise IndexError when the
arrays are shorter than `n`. -/
def buildWGo (c : Cache) : List ℕ → Except PyErr (List (List ℚ))
  | [] => .ok []
  | i :: rest =>
      match c.weight_pubkeys[i]?, c.weight_vals[i]? with
      | some keys, some vals =>
          match buildRow c keys vals with
          | .error e => .error e
          | .ok row =>
              match buildWGo c rest with
              | .error e => .error e
              | .ok rows => .ok (row :: rows)
      | _, _ => .error .indexError

/-- The full `n × n` weight matrix of `Metagraph._cache_to_state`. -/
def buildW (c : Cache) : Except PyErr (List (List ℚ)) :=
  buildWGo c (List.range c.n)

/-- `Metagraph._cache_to_state`: deep-copies the cache into a fresh
`TorchChainState`.  Note the source line `state.state = torch.tensor(...)`
stores the stake array under a NEW attribute named `state`; the `stake` field
initialized by `TorchChainState.__init__` is never assigned and keeps its
empty tensor. -/
def cacheToState (c : Cache) (lastSync : ℤ) : Except PyErr TorchChainState :=
  match buildW c with
  | .error e => .error e
  | .ok W =>
      .ok { block := lastSync
            n := c.n
            neurons := c.neurons
            indices := List.range c.n
            uids := c.uids
            emit := c.emit
            stake := TorchChainState.init.stake
            state := some c.stake
            W := W }

/-- `u32_int_max` from `Metagraph._convert_weights`. -/
def u32_int_max : ℤ := 4294967295

/-- Python `int()` applied to a float: truncation toward zero. -/
def pyInt (q : ℚ) : ℤ := if q < 0 then ⌈q⌉ else ⌊q⌋

/-- The loop of `Metagraph._convert_weights` over `enumerate(weights)`:
positions with value `> 0.0001` emit `self._pubkey_for_index[i]` (KeyError if
the index is unknown) and `int(float(val) * int(u32_int_max))`. -/
def convertGo (c : Cache) : List (ℕ × ℚ) → List Pk × List ℤ → Except PyErr (List Pk × List ℤ)
  | [], acc => .ok acc
  | iv :: rest, acc =>
      if iv.2 > 1 / 10000 then
        match c.pubkey_for_index iv.1 with
        | none => .error .keyError
        | some pk => convertGo c rest (acc.1 ++ [pk], acc.2 ++ [pyInt (iv.2 * (u32_int_max : ℚ))])
      else convertGo c rest acc

/-- `Metagraph._convert_weights`. -/
def convertWeights (c : Cache) (weights : List ℚ) : Except PyErr (List Pk × List ℤ) :=
  convertGo c weights.enum ([], [])

/-- Lookup in a Python dict modelled as an association list (first match wins;
the build below keeps keys unique). -/
def lookupPy : List (Pk × ℤ) → Pk → Option ℤ
  | [], _ => none
  | p :: rest, k => if p.1 = k then some p.2 else lookupPy rest k

/-- Python dict assignment `d[k] = v`: overwrite in place when the key exists
(insertion order preserved), else append. -/
def pyDictSet (d : List (Pk × ℤ)) (k : Pk) (v : ℤ) : List (Pk × ℤ) :=
  if d.any (fun p => decide (p.1 = k)) then d.map (fun p => if p.1 = k then (p.1, v) else p)
  else d ++ [(k, v)]

/-- Fold a list of pairs into a dict, later entries overwriting earlier. -/
def buildDictFrom (d : List (Pk × ℤ)) (l : List (Pk × ℤ)) : List (Pk × ℤ) :=
  l.foldl (fun d kv => pyDictSet d kv.1 kv.2) d

/-- The dict built by the index loop of
`Metagraph._wait_for_weights_inclusion.equal`. -/
def buildDict (l : List (Pk × ℤ)) : List (Pk × ℤ) :=
  buildDictFrom [] l

/-- Last-wins lookup directly on the raw pair list: the value the built dict
associates to `k`. -/
def lastLookup : List (Pk × ℤ) → Pk → Option ℤ
  | [], _ => none
  | p :: rest, k =>
      match lastLookup rest k with
      | some v => some v
      | none => if p.1 = k then some p.2 else none

/-- The index loop of `equal`: `for i in range(len(local_keys))` filling both
dicts; indexing a parallel list shorter than `local_keys` raises IndexError. -/
def buildMapsAux : List Pk → List ℤ → List Pk → List ℤ → List (Pk × ℤ) → List (Pk × ℤ) →
    Except PyErr (List (Pk × ℤ) × List (Pk × ℤ))
  | [], _, _, _, ld, cd => .ok (ld, cd)
  | _ :: _, [], _, _, _, _ => .error .indexError
  | _ :: _, _ :: _, [], _, _, _ => .error .indexError
  | _ :: _, _ :: _, _ :: _, [], _, _ => .error .indexError
  | k :: ks, v :: vs, ck :: cks, cv :: cvs, ld, cd =>
      buildMapsAux ks vs cks cvs (pyDictSet ld k v) (pyDictSet cd ck cv)

/-- The comparison loop of `equal`: iterate the local dict in insertion order;
`ckey_map[key]` raises KeyError when the key is absent from the chain dict;
a differing value returns False. -/
def checkKeys : List (Pk × ℤ) → List (Pk × ℤ) → Except PyErr Bool
  | [], _ => .ok true
  | p :: rest, cd =>
      match lookupPy cd p.1 with
      | none => .error .keyError
      | some cv => if p.2 ≠ cv then .ok false else checkKeys rest cd

/-- `Metagraph._wait_for_weights_inclusion.equal`: length guard, dict build,
key-by-key comparison. -/
def wEqual (lk : List Pk) (lv : List ℤ) (ck : List Pk) (cv : List ℤ) : Except PyErr Bool :=
  if lk.length ≠ ck.length then .ok false
  else
    match buildMapsAux lk lv ck cv [] [] with
    | .error e => .error e
    | .ok (ld, cd) => checkKeys ld cd

/-- The polling loop of `Metagraph._wait_for_weights_inclusion`.  `chain m`
is the chain's `(weight_keys, weight_vals)` response to the `m`-th poll.
`fuel` bounds how many polls we observe: the SOURCE loop has no exit on
timeout — the `if (time.time() - start_time) > timeout` branch only logs —
so `.ok none` (fuel exhausted, loop still spinning) models the unbounded
wait; the `timeout` argument (default 12) influences nothing but logging.
When the loop does exit the source runs `return True` unconditionally. -/
def waitForWeightsAux (lk : List Pk) (lv : List ℤ) (chain : ℕ → List Pk × List ℤ) :
    ℕ → ℕ → Except PyErr (Option Bool)
  | _, 0 => .ok none
  | m, fuel + 1 =>
      match wEqual lk lv (chain m).1 (chain m).2 with
      | .error e => .error e
      | .ok true => .ok (some true)
      | .ok false => waitForWeightsAux lk lv chain (m + 1) fuel

/-- `Metagraph._wait_for_weights_inclusion` (polls start at 0). -/
def waitForWeights (lk : List Pk) (lv : List ℤ) (chain : ℕ → List Pk × List ℤ)
    (fuel : ℕ) : Except PyErr (Option Bool) :=
  waitForWeightsAux lk lv chain 0 fuel

/-- `Metagraph.async_emit`: convert the weights (a KeyError propagates — the
`try` covers only the submission call), submit (`submitOk = false` models
`subtensor_client.set_weights` raising, answered by `return False`), then
wait for inclusion. -/
def asyncEmit (c : Cache) (weights : List ℚ) (submitOk : Bool)
    (chain : ℕ → List Pk × List ℤ) (fuel : ℕ) : Except PyErr (Option Bool) :=
  match convertWeights c weights with
  | .error e => .error e
  | .ok (keys, vals) =>
      if submitOk then waitForWeightsAux keys vals chain 0 fuel
      else .ok (some false)

/-! ## Theorems -/

/-- Claim C6: calling `set_weights` with a vector whose length differs from
the current `n` fails immediately with the length-mismatch `ValueError`,
raised before the assignment to `W[0,:]`; the state object holds no chain
client, so no chain interaction can be attempted, and the error is raised
before any mutation of the held state. -/
theorem set_weights_length_mismatch_errors (s : TorchChainState) (w : List ℚ)
    (h : w.length ≠ s.n) : s.set_weights w = .error .valueError := by
  unfold TorchChainState.set_weights
  rw [if_pos h]

/-- Witness for `set_weights_length_mismatch_errors`: a 3-element vector
against a state with `n = 5`. -/
theorem set_weights_length_mismatch_errors_apply :
    TorchChainState.set_weights { TorchChainState.init with n := 5 } [1, 2, 3] =
      .error .valueError :=
  set_weights_length_mismatch_errors _ _ (by decide)

/-- Claim C5 (code bug): the snapshot builder violates invariant 1.  The
source line `state.state = torch.tensor(copy.deepcopy(self._stake), ...)` in
`Metagraph._cache_to_state` assigns the stake array to a new attribute named
`state` instead of to `stake`, so every built snapshot keeps the
constructor's empty `stake` tensor: already for the freshly seeded cache the
snapshot has `n = 1` but `len(stake) = 0 ≠ n`. -/
theorem snapshot_stake_array_left_empty :
    (cacheToState (initCache "a") 0).map (fun s => (s.n, s.stake, s.state)) =
      .ok (1, ([] : List ℤ), some [(0 : ℤ)]) ∧ ([] : List ℤ).length ≠ 1 := by
  constructor
  · simp +decide [cacheToState, buildW, buildWGo, buildRow, buildRowGo, initCache,
      TorchChainState.init, Except.map]
  · decide

/-- Claim C4 (code bug): a failed detail poll of a previously-unseen peer
does NOT leave the cache unchanged.  `Metagraph._poll_pubkey` increments
`self._n` and `self._next_uid` and installs the pubkey↔index mappings before
the `try` block, so after the caught exception `n = 2` and the identity maps
contain the new peer while every parallel array still has length 1 — and the
next `_cache_to_state` raises IndexError on the inconsistent cache. -/
theorem failed_new_peer_corrupts_cache :
    (pollPubkey (initCache "a") "b" none).n = 2 ∧
    (pollPubkey (initCache "a") "b" none).next_uid = 2 ∧
    (pollPubkey (initCache "a") "b" none).index_for_pubkey "b" = some 1 ∧
    (pollPubkey (initCache "a") "b" none).pubkey_for_index 1 = some "b" ∧
    (pollPubkey (initCache "a") "b" none).uids = [0] ∧
    (pollPubkey (initCache "a") "b" none).stake = [0] ∧
    (pollPubkey (initCache "a") "b" none).weight_pubkeys = [["a"]] ∧
    (pollPubkey (initCache "a") "b" none).index_for_uid 1 = none ∧
    cacheToState (pollPubkey (initCache "a") "b" none) 0 = .error .indexError := by
  refine ⟨rfl, rfl, by decide, by decide, rfl, rfl, rfl, by decide, ?_⟩
  simp +decide [cacheToState, buildW, buildWGo, buildRow, buildRowGo, pollPubkey, initCache]

/-- Counterexample to claim C1: a snapshot row can sum to 1/2.  The builder
divides by `sum(vals)` — the sum of ALL values of the row's weight-list —
not by the sum of the values that resolve to known identities.  With peer
`"b"` holding weight-list `[("a", 1), ("q", 1)]` where `"q"` is unknown, row
1 becomes `[1/2, 0]`, summing to 1/2, neither 0 nor 1. -/
theorem row_sum_strictly_between_example :
    buildW (pollPubkey (initCache "a") "b" (some ⟨0, 0, 0, 0, ["a", "q"], [1, 1]⟩)) =
      .ok [[1, 0], [1/2, 0]] ∧
    (1/2 : ℚ) + 0 ≠ 0 ∧ (1/2 : ℚ) + 0 ≠ 1 := by
  refine ⟨?_, by norm_num, by norm_num⟩
  simp +decide [buildW, buildWGo, buildRow, buildRowGo, pollPubkey, initCache]

/-- Counterexample to claim C10: a resolvable weight entry whose row values
sum to zero makes `Metagraph._cache_to_state` divide by zero.  Peer `"b"`
has weight-list `[("a", 0)]`: zero resolvable positive weight, yet the
builder raises ZeroDivisionError instead of producing an all-zero row. -/
theorem zero_sum_row_divides_by_zero :
    buildW (pollPubkey (initCache "a") "b" (some ⟨0, 0, 0, 0, ["a"], [0]⟩)) =
      .error .zeroDivisionError := by
  simp +decide [buildW, buildWGo, buildRow, buildRowGo, pollPubkey, initCache]

/-- Counterexample to claim C3: the encoded integer is Python `int()`
truncation, not rounding.  `encode([0.5])` emits `2147483647` while
`round(0.5 * 4294967295) = 2147483648`. -/
theorem convertWeights_truncates_not_rounds :
    convertWeights (initCache "a") [1/2] = .ok (["a"], [2147483647]) ∧
    round ((1/2 : ℚ) * (u32_int_max : ℚ)) = (2147483648 : ℤ) ∧
    (2147483647 : ℤ) ≠ 2147483648 := by
  refine ⟨?_, ?_, by decide⟩
  · simp +decide [convertWeights, convertGo, pyInt, initCache, u32_int_max]
    norm_num
  · rw [round_eq]
    norm_num [u32_int_max]

/-- Counterexample to claim C7: a submitted key missing from the chain's
recorded keys makes the comparison raise KeyError (`ckey_map[key]` on an
absent key), not return false. -/
theorem wEqual_missing_key_raises :
    wEqual ["a"] [1] ["b"] [1] = .error .keyError := by
  simp +decide [wEqual, buildMapsAux, pyDictSet, checkKeys, lookupPy]

/-- Claim C2 (code bug): on a run where the chain's recorded mapping never
equals the submitted one, the confirmation wait NEVER reports false.  The
source's timeout branch only logs and does not exit the loop, and the
`return True` after the loop is unconditional: the only possible outcomes of
`_wait_for_weights_inclusion` are True (some poll compared equal), an
uncaught exception from `equal`, or looping forever.  First conjunct: no
fuel bound, poll position, or chain behaviour can produce a false report.
Second conjunct: with submitted keys `["a"]` and a chain that permanently
reports no weights, the loop is still spinning after any number of polls. -/
theorem wait_inclusion_never_reports_false :
    (∀ (lk : List Pk) (lv : List ℤ) (chain : ℕ → List Pk × List ℤ) (m fuel : ℕ),
      waitForWeightsAux lk lv chain m fuel ≠ .ok (some false)) ∧
    (∀ m fuel : ℕ, waitForWeightsAux ["a"] [1] (fun _ => ([], [])) m fuel = .ok none) := by
  constructor
  · intro lk lv chain m fuel
    induction fuel generalizing m with
    | zero => simp [waitForWeightsAux]
    | succ k ih =>
        simp only [waitForWeightsAux]
        cases hw : wEqual lk lv (chain m).1 (chain m).2 with
        | error e => simp
        | ok b =>
            cases b with
            | false => exact ih (m + 1)
            | true => simp
  · intro m fuel
    induction fuel generalizing m with
    | zero => rfl
    | succ k ih =>
        simp only [waitForWeightsAux]
        exact ih (m + 1)

/-- Witness for `wait_inclusion_never_reports_false`: after 12 polls against
the permanently-empty chain the wait has produced no report at all. -/
theorem wait_inclusion_never_reports_false_apply :
    waitForWeightsAux ["a"] [1] (fun _ => ([], [])) 0 12 = .ok none :=
  wait_inclusion_never_reports_false.2 0 12

/-- Claim C8 (code bug in the sync wrapper, async path as claimed): when the
submission raises, `async_emit` returns false immediately, with no internal
retry — the confirmation wait is never entered. -/
theorem async_emit_submission_failure_returns_false (c : Cache) (w : List ℚ)
    (chain : ℕ → List Pk × List ℤ) (fuel : ℕ) (p : List Pk × List ℤ)
    (h : convertWeights c w = .ok p) :
    asyncEmit c w false chain fuel = .ok (some false) := by
  obtain ⟨keys, vals⟩ := p
  unfold asyncEmit
  rw [h]
  rfl

/-- Witness for `async_emit_submission_failure_returns_false` at the fresh
cache with weights `[0.5]`. -/
theorem async_emit_submission_failure_returns_false_apply :
    asyncEmit (initCache "a") [1/2] false (fun _ => ([], [])) 12 = .ok (some false) :=
  async_emit_submission_failure_returns_false _ _ _ _ (["a"], [2147483647]) (by
    simp +decide [convertWeights, convertGo, pyInt, initCache, u32_int_max]
    norm_num)

/-- The row loop writes nothing when no key of the list resolves. -/
theorem buildRowGo_unresolved (c : Cache) (S : ℤ) :
    ∀ (l : List (Pk × ℤ)) (row : List ℚ),
      (∀ kv ∈ l, c.index_for_pubkey kv.1 = none) →
      buildRowGo c S l row = .ok row := by
  intro l
  induction l with
  | nil => intro row _; rfl
  | cons kv rest ih =>
      intro row h
      have hk := h kv (List.mem_cons_self kv rest)
      simp only [buildRowGo, hk]
      exact ih row (fun kv2 h2 => h kv2 (List.mem_cons_of_mem kv h2))

/-- Claim C10 as amended: a peer NONE of whose weight-list entries resolves
to a known identity (in particular a peer with an empty list) produces an
all-zero row without error; the unamended claim fails because a resolvable
entry combined with a zero value-sum raises ZeroDivisionError
(`zero_sum_row_divides_by_zero`). -/
theorem buildRow_unresolvable_all_zero (c : Cache) (keys : List Pk) (vals : List ℤ)
    (h : ∀ k ∈ keys, c.index_for_pubkey k = none) :
    buildRow c keys vals = .ok (List.replicate c.n 0) := by
  unfold buildRow
  exact buildRowGo_unresolved c vals.sum (keys.zip vals) _
    (fun kv hkv => h kv.1 (List.of_mem_zip hkv).1)

/-- Witness for `buildRow_unresolvable_all_zero`: two unknown pubkeys. -/
theorem buildRow_unresolvable_all_zero_apply :
    buildRow (initCache "a") ["x", "y"] [0, 5] = .ok (List.replicate (initCache "a").n 0) :=
  buildRow_unresolvable_all_zero _ _ _ (by decide)

/-- Helper for `convertWeights_spec`: the encoding loop with accumulator. -/
theorem convertGo_spec (c : Cache) :
    ∀ (l : List (ℕ × ℚ)) (acc : List Pk × List ℤ),
      (∀ iv ∈ l, iv.2 > 1 / 10000 → (c.pubkey_for_index iv.1).isSome) →
      convertGo c l acc = .ok
        (acc.1 ++ l.filterMap (fun iv => if iv.2 > 1 / 10000 then c.pubkey_for_index iv.1 else none),
         acc.2 ++ (l.filter (fun iv => decide (iv.2 > 1 / 10000))).map
           (fun iv => pyInt (iv.2 * (u32_int_max : ℚ)))) := by
  intro l
  induction l with
  | nil => intro acc _; simp [convertGo]
  | cons iv rest ih =>
      intro acc h
      by_cases hgt : iv.2 > 1 / 10000
      · have hsome := h iv (List.mem_cons_self iv rest) hgt
        obtain ⟨pk, hpk⟩ := Option.isSome_iff_exists.mp hsome
        simp only [convertGo, if_pos hgt, hpk]
        rw [ih (acc.1 ++ [pk], acc.2 ++ [pyInt (iv.2 * (u32_int_max : ℚ))])
          (fun iv2 h2 => h iv2 (List.mem_cons_of_mem iv h2))]
        simp only [List.filterMap_cons, List.filter_cons, hpk, if_pos hgt,
          decide_eq_true hgt, if_true, List.map_cons, List.append_assoc,
          List.singleton_append, List.cons_append, List.nil_append]
      · simp only [convertGo, if_neg hgt]
        rw [ih acc (fun iv2 h2 => h iv2 (List.mem_cons_of_mem iv h2))]
        simp only [List.filterMap_cons, List.filter_cons, if_neg hgt,
          decide_eq_false hgt, if_false, Bool.false_eq_true]

/-- Claim C3 as amended: encoding emits exactly the positions `i` with
`weights[i] > 0.0001`, each as the pair
`(pubkey_of(i), int(weights[i] * 4294967295))` — the integer is the PRODUCT
TRUNCATED TOWARD ZERO by Python `int()`, not rounded
(`convertWeights_truncates_not_rounds`); positions at or below 0.0001 are
omitted entirely. -/
theorem convertWeights_spec (c : Cache) (weights : List ℚ)
    (h : ∀ iv ∈ weights.enum, iv.2 > 1 / 10000 → (c.pubkey_for_index iv.1).isSome) :
    convertWeights c weights = .ok
      (weights.enum.filterMap (fun iv => if iv.2 > 1 / 10000 then c.pubkey_for_index iv.1 else none),
       (weights.enum.filter (fun iv => decide (iv.2 > 1 / 10000))).map
         (fun iv => pyInt (iv.2 * (u32_int_max : ℚ)))) := by
  unfold convertWeights
  simpa using convertGo_spec c weights.enum ([], []) h

/-- Witness for `convertWeights_spec`: the spec scenario
`encode([0.00005, 0.5, 0.00009])` against a two-peer cache — indices 0 and 2
are omitted, index 1 is kept with the truncated value. -/
theorem convertWeights_spec_apply :
    convertWeights (pollPubkey (initCache "a") "b" (some ⟨0, 0, 0, 0, ["a"], [1]⟩))
      [1/20000, 1/2, 9/100000] = .ok (["b"], [2147483647]) := by
  rw [convertWeights_spec]
  · norm_num [List.enum, List.enumFrom, List.filterMap_cons, List.filter_cons]
    simp +decide [pollPubkey, initCache, pyInt, u32_int_max]
    norm_num
  · intro iv hiv hgt
    fin_cases hiv
    · norm_num at hgt
    · simp +decide [pollPubkey, initCache]
    · norm_num at hgt

/-- Invariant behind claim C9: along every reachable cache the two identity
dicts form a bijection between `[0, n)` and the known pubkeys.  The maps are
installed in lock-step in `_poll_pubkey` (even on the failing path, where the
allocation precedes the `try` block), so the invariant survives arbitrary
poll sequences, failures included. -/
theorem reachable_bij (s : Pk) (c : Cache) (h : Reachable s c) :
    (∀ i, i < c.n → ∃ pk, c.pubkey_for_index i = some pk ∧ c.index_for_pubkey pk = some i) ∧
    (∀ pk i, c.index_for_pubkey pk = some i → i < c.n ∧ c.pubkey_for_index i = some pk) := by
  induction h with
  | init =>
      constructor
      · intro i hi
        have hi0 : i = 0 := Nat.lt_one_iff.mp hi
        subst hi0
        exact ⟨s, by simp [initCache], by simp [initCache]⟩
      · intro pk i hpk
        simp only [initCache] at hpk
        by_cases hps : pk = s
        · rw [if_pos hps] at hpk
          have hi0 : i = 0 := (Option.some.inj hpk).symm
          subst hi0
          exact ⟨Nat.one_pos, by simp [initCache, hps]⟩
        · rw [if_neg hps] at hpk
          exact Option.noConfusion hpk
  | step c pk r hc ih =>
      obtain ⟨ih1, ih2⟩ := ih
      cases hl : c.index_for_pubkey pk with
      | some idx =>
          cases r with
          | none =>
              constructor
              · intro i hi
                simp only [pollPubkey, hl] at hi ⊢
                exact ih1 i hi
              · intro pk2 i h2
                simp only [pollPubkey, hl] at h2 ⊢
                exact ih2 pk2 i h2
          | some d =>
              constructor
              · intro i hi
                simp only [pollPubkey, hl] at hi ⊢
                exact ih1 i hi
              · intro pk2 i h2
                simp only [pollPubkey, hl] at h2 ⊢
                exact ih2 pk2 i h2
      | none =>
          have key1 : ∀ i, i < c.n + 1 →
              ∃ pk2, (if i = c.n then some pk else c.pubkey_for_index i) = some pk2 ∧
                (if pk2 = pk then some c.n else c.index_for_pubkey pk2) = some i := by
            intro i hi
            rcases Nat.lt_succ_iff_lt_or_eq.mp hi with hlt | heq
            · obtain ⟨pk2, h1, h2⟩ := ih1 i hlt
              refine ⟨pk2, ?_, ?_⟩
              · rw [if_neg (by omega)]
                exact h1
              · have hne : pk2 ≠ pk := by
                  intro hEq
                  rw [hEq, hl] at h2
                  exact Option.noConfusion h2
                rw [if_neg hne]
                exact h2
            · subst heq
              exact ⟨pk, by rw [if_pos rfl], by rw [if_pos rfl]⟩
          have key2 : ∀ pk2 i, (if pk2 = pk then some c.n else c.index_for_pubkey pk2) = some i →
              i < c.n + 1 ∧ (if i = c.n then some pk else c.pubkey_for_index i) = some pk2 := by
            intro pk2 i h2
            by_cases hpe : pk2 = pk
            · rw [if_pos hpe] at h2
              have hieq : i = c.n := (Option.some.inj h2).symm
              subst hieq
              refine ⟨Nat.lt_succ_self _, ?_⟩
              rw [if_pos rfl, hpe]
            · rw [if_neg hpe] at h2
              obtain ⟨hlt, hrev⟩ := ih2 pk2 i h2
              refine ⟨Nat.lt_succ_of_lt hlt, ?_⟩
              rw [if_neg (by omega)]
              exact hrev
          cases r with
          | none =>
              constructor
              · intro i hi
                simp only [pollPubkey, hl] at hi ⊢
                exact key1 i hi
              · intro pk2 i h2
                simp only [pollPubkey, hl] at h2 ⊢
                exact key2 pk2 i h2
          | some d =>
              constructor
              · intro i hi
                simp only [pollPubkey, hl] at hi ⊢
                exact key1 i hi
              · intro pk2 i h2
                simp only [pollPubkey, hl] at h2 ⊢
                exact key2 pk2 i h2

/-- Claim C9: after every sequence of sync passes starting from construction
(self peer at index 0, uid 0), the identity index is a bijection: every dense
index `i < n` carries exactly one pubkey with `index_of(pubkey_of(i)) = i`,
and no two distinct pubkeys resolve to the same dense index. -/
theorem reachable_identity_bijection (s : Pk) (c : Cache) (h : Reachable s c) :
    (∀ i, i < c.n → ∃ pk, c.pubkey_for_index i = some pk ∧ c.index_for_pubkey pk = some i) ∧
    (∀ pk1 pk2 i, c.index_for_pubkey pk1 = some i → c.index_for_pubkey pk2 = some i →
      pk1 = pk2) := by
  obtain ⟨h1, h2⟩ := reachable_bij s c h
  refine ⟨h1, ?_⟩
  intro pk1 pk2 i ha hb
  have ha2 := (h2 pk1 i ha).2
  have hb2 := (h2 pk2 i hb).2
  exact Option.some.inj (ha2.symm.trans hb2)

/-- Witness for `reachable_identity_bijection`: the cache after one failed
poll of a new peer (the worst case for the invariant). -/
theorem reachable_identity_bijection_apply :
    (∀ i, i < (pollPubkey (initCache "a") "b" none).n →
      ∃ pk, (pollPubkey (initCache "a") "b" none).pubkey_for_index i = some pk ∧
        (pollPubkey (initCache "a") "b" none).index_for_pubkey pk = some i) ∧
    (∀ pk1 pk2 i, (pollPubkey (initCache "a") "b" none).index_for_pubkey pk1 = some i →
      (pollPubkey (initCache "a") "b" none).index_for_pubkey pk2 = some i → pk1 = pk2) :=
  reachable_identity_bijection "a" _ (Reachable.step _ _ _ Reachable.init)

/-- Setting a position currently holding 0 adds the new value to the sum. -/
theorem list_sum_set_of_zero :
    ∀ (row : List ℚ) (j : ℕ) (v : ℚ), row[j]? = some 0 → (row.set j v).sum = row.sum + v := by
  intro row
  induction row with
  | nil => intro j v h; simp at h
  | cons a t ih =>
      intro j v h
      cases j with
      | zero =>
          simp only [List.getElem?_cons_zero, Option.some.injEq] at h
          subst h
          simp [List.set]
          ring
      | succ m =>
          simp only [List.getElem?_cons_succ] at h
          simp only [List.set, List.sum_cons, ih m v h]
          ring

/-- The row loop adds `val / S` for each entry that resolves to a known,
in-bounds, previously-untouched column. -/
theorem buildRowGo_sum (c : Cache) (S : ℤ) (hS : S ≠ 0) :
    ∀ (l : List (Pk × ℤ)) (row : List ℚ),
      (l.map Prod.fst).Nodup →
      (∀ kv ∈ l, ∀ j, c.index_for_pubkey kv.1 = some j → j < c.n ∧ row[j]? = some 0) →
      (∀ kv1 ∈ l, ∀ kv2 ∈ l, ∀ j, c.index_for_pubkey kv1.1 = some j →
        c.index_for_pubkey kv2.1 = some j → kv1.1 = kv2.1) →
      ∃ row2, buildRowGo c S l row = .ok row2 ∧
        row2.sum = row.sum +
          ((l.filter fun kv => (c.index_for_pubkey kv.1).isSome).map
            (fun kv => ((kv.2 : ℚ)))).sum / (S : ℚ) := by
  intro l
  induction l with
  | nil =>
      intro row _ _ _
      exact ⟨row, rfl, by simp⟩
  | cons kv rest ih =>
      intro row hnodup hfresh hinj
      rw [List.map_cons] at hnodup
      have hnodup2 : (rest.map Prod.fst).Nodup := hnodup.of_cons
      have hinj2 : ∀ kv1 ∈ rest, ∀ kv2 ∈ rest, ∀ j, c.index_for_pubkey kv1.1 = some j →
          c.index_for_pubkey kv2.1 = some j → kv1.1 = kv2.1 :=
        fun kv1 h1 kv2 h2 => hinj kv1 (List.mem_cons_of_mem kv h1) kv2 (List.mem_cons_of_mem kv h2)
      cases hidx : c.index_for_pubkey kv.1 with
      | none =>
          simp only [buildRowGo, hidx]
          obtain ⟨row2, heq, hsum⟩ := ih row hnodup2
            (fun kv2 h2 => hfresh kv2 (List.mem_cons_of_mem kv h2)) hinj2
          refine ⟨row2, heq, ?_⟩
          rw [hsum, List.filter_cons]
          simp [hidx]
      | some j =>
          obtain ⟨hjlt, hj0⟩ := hfresh kv (List.mem_cons_self kv rest) j hidx
          simp only [buildRowGo, hidx, if_neg hS, if_pos hjlt]
          have hfresh2 : ∀ kv2 ∈ rest, ∀ j2, c.index_for_pubkey kv2.1 = some j2 →
              j2 < c.n ∧ (row.set j ((kv.2 : ℚ) / (S : ℚ)))[j2]? = some 0 := by
            intro kv2 h2 j2 hj2
            obtain ⟨hlt2, h02⟩ := hfresh kv2 (List.mem_cons_of_mem kv h2) j2 hj2
            refine ⟨hlt2, ?_⟩
            have hne : j ≠ j2 := by
              intro hEq
              subst hEq
              have hkk : kv.1 = kv2.1 :=
                hinj kv (List.mem_cons_self kv rest) kv2 (List.mem_cons_of_mem kv h2) j hidx hj2
              have hmem : kv2.1 ∈ rest.map Prod.fst := List.mem_map_of_mem Prod.fst h2
              rw [← hkk] at hmem
              exact (List.nodup_cons.mp hnodup).1 hmem
            rw [List.getElem?_set_ne hne]
            exact h02
          obtain ⟨row2, heq, hsum⟩ := ih (row.set j ((kv.2 : ℚ) / (S : ℚ))) hnodup2 hfresh2 hinj2
          refine ⟨row2, heq, ?_⟩
          rw [hsum, list_sum_set_of_zero row j _ hj0, List.filter_cons]
          simp only [hidx, Option.isSome_some, if_true, List.map_cons, List.sum_cons]
          rw [add_div]
          ring

/-- Claim C1 as amended: each contributing value of row `i` is divided by the
sum of ALL values of row `i`'s weight-list — entries referencing unknown
identities are dropped from the numerator set but NOT from the normalizing
sum — so (for a list with distinct keys, in-bounds resolution and non-zero
total) the row sums to (sum of values at known identities) / (sum of all
values): 1 when every entry resolves, 0 when none does, and strictly between
0 and 1 otherwise (`row_sum_strictly_between_example`). -/
theorem buildRow_sum_eq_resolvable_div_total (c : Cache) (keys : List Pk) (vals : List ℤ)
    (hlen : keys.length = vals.length)
    (hnodup : keys.Nodup)
    (hS : vals.sum ≠ 0)
    (hlt : ∀ k ∈ keys, ∀ j, c.index_for_pubkey k = some j → j < c.n)
    (hinj : ∀ k1 ∈ keys, ∀ k2 ∈ keys, ∀ j, c.index_for_pubkey k1 = some j →
      c.index_for_pubkey k2 = some j → k1 = k2) :
    ∃ row, buildRow c keys vals = .ok row ∧
      row.sum = (((keys.zip vals).filter fun kv => (c.index_for_pubkey kv.1).isSome).map
        (fun kv => ((kv.2 : ℚ)))).sum / ((vals.sum : ℚ)) := by
  unfold buildRow
  have hmap : (keys.zip vals).map Prod.fst = keys := List.map_fst_zip keys vals (le_of_eq hlen)
  obtain ⟨row2, heq, hsum⟩ := buildRowGo_sum c vals.sum hS (keys.zip vals) (List.replicate c.n 0)
    (by rw [hmap]; exact hnodup)
    (fun kv hkv j hj => by
      have hjlt := hlt kv.1 (List.of_mem_zip hkv).1 j hj
      refine ⟨hjlt, ?_⟩
      simp [List.getElem?_replicate, hjlt])
    (fun kv1 h1 kv2 h2 j ha hb =>
      hinj kv1.1 (List.of_mem_zip h1).1 kv2.1 (List.of_mem_zip h2).1 j ha hb)
  refine ⟨row2, heq, ?_⟩
  rw [hsum]
  simp

/-- Witness for `buildRow_sum_eq_resolvable_div_total`: both entries of the
row resolve, so the row sums to (1 + 3) / 4 = 1. -/
theorem buildRow_sum_eq_resolvable_div_total_apply :
    ∃ row, buildRow (pollPubkey (initCache "a") "b" (some ⟨0, 0, 0, 0, ["a", "b"], [1, 3]⟩))
        ["a", "b"] [1, 3] = .ok row ∧
      row.sum = (((["a", "b"].zip ([1, 3] : List ℤ)).filter
        (fun kv => ((pollPubkey (initCache "a") "b"
          (some ⟨0, 0, 0, 0, ["a", "b"], [1, 3]⟩)).index_for_pubkey kv.1).isSome)).map
        (fun kv => ((kv.2 : ℚ)))).sum / ((([1, 3] : List ℤ).sum : ℚ)) :=
  buildRow_sum_eq_resolvable_div_total _ _ _ (by decide) (by decide) (by decide)
    (by
      intro k hk j hj
      fin_cases hk <;> simp +decide [pollPubkey, initCache] at hj ⊢ <;> omega)
    (by
      intro k1 h1 k2 h2 j ha hb
      fin_cases h1 <;> fin_cases h2 <;> simp_all +decide [pollPubkey, initCache] <;> omega)

/-- Lookup distributes over append, first list winning. -/
theorem lookupPy_append :
    ∀ (d e : List (Pk × ℤ)) (k : Pk),
      lookupPy (d ++ e) k =
        match lookupPy d k with
        | some v => some v
        | none => lookupPy e k := by
  intro d
  induction d with
  | nil => intro e k; rfl
  | cons p t ih =>
      intro e k
      by_cases hp : p.1 = k
      · simp [lookupPy, hp]
      · simp only [List.cons_append, lookupPy, if_neg hp]
        exact ih e k

theorem lookupPy_eq_none_iff :
    ∀ (d : List (Pk × ℤ)) (k : Pk), lookupPy d k = none ↔ k ∉ d.map Prod.fst := by
  intro d
  induction d with
  | nil => intro k; simp [lookupPy]
  | cons p t ih =>
      intro k
      by_cases hp : p.1 = k
      · simp [lookupPy, hp]
      · simp only [lookupPy, if_neg hp, List.map_cons, List.mem_cons]
        rw [ih k]
        constructor
        · intro h1 h2
          rcases h2 with h2 | h2
          · exact hp h2.symm
          · exact h1 h2
        · intro h1
          exact fun h2 => h1 (Or.inr h2)

theorem lookupPy_map_overwrite (k : Pk) (v : ℤ) :
    ∀ (d : List (Pk × ℤ)) (k2 : Pk),
      lookupPy (d.map (fun p => if p.1 = k then (p.1, v) else p)) k2 =
        if k2 = k then (lookupPy d k).map (fun _ => v) else lookupPy d k2 := by
  intro d
  induction d with
  | nil => intro k2; simp [lookupPy]
  | cons p t ih =>
      intro k2
      by_cases hpk : p.1 = k
      · by_cases hk2 : k2 = k
        · subst hk2
          simp [lookupPy, List.map_cons, if_pos hpk, hpk]
        · simp only [List.map_cons, if_pos hpk, lookupPy]
          rw [if_neg (fun h => hk2 (hpk ▸ h).symm), if_neg hk2, ih k2, if_neg hk2,
            if_neg (fun h : p.1 = k2 => hk2 (h ▸ hpk.symm).symm)]
      · by_cases hpk2 : p.1 = k2
        · have hk2 : k2 ≠ k := fun h => hpk (hpk2.trans h)
          simp only [List.map_cons, if_neg hpk, lookupPy, if_pos hpk2, if_neg hk2]
        · simp only [List.map_cons, if_neg hpk, lookupPy, if_neg hpk2]
          exact ih k2

theorem lookupPy_pyDictSet (d : List (Pk × ℤ)) (k : Pk) (v : ℤ) (k2 : Pk) :
    lookupPy (pyDictSet d k v) k2 = if k2 = k then some v else lookupPy d k2 := by
  unfold pyDictSet
  by_cases hc : d.any (fun p => decide (p.1 = k)) = true
  · rw [if_pos hc, lookupPy_map_overwrite]
    by_cases hk2 : k2 = k
    · rw [if_pos hk2, if_pos hk2]
      obtain ⟨p, hp, hpk⟩ := List.any_eq_true.mp hc
      have hpk2 : p.1 = k := of_decide_eq_true hpk
      have : lookupPy d k ≠ none := by
        intro hno
        rw [lookupPy_eq_none_iff] at hno
        exact hno (hpk2 ▸ List.mem_map_of_mem Prod.fst hp)
      cases hl : lookupPy d k with
      | none => exact absurd hl this
      | some w => rfl
    · rw [if_neg hk2, if_neg hk2]
  · rw [if_neg hc, lookupPy_append]
    have hnone : lookupPy d k = none := by
      rw [lookupPy_eq_none_iff]
      intro hmem
      obtain ⟨p, hp, hpk⟩ := List.mem_map.mp hmem
      exact hc (List.any_eq_true.mpr ⟨p, hp, decide_eq_true hpk⟩)
    by_cases hk2 : k2 = k
    · subst hk2
      rw [hnone]
      simp [lookupPy]
    · rw [if_neg hk2]
      cases hl : lookupPy d k2 with
      | some w => simp [hl]
      | none =>
          simp only [hl, lookupPy]
          rw [if_neg (fun h : k = k2 => hk2 h.symm)]

theorem keys_pyDictSet (d : List (Pk × ℤ)) (k : Pk) (v : ℤ) :
    (pyDictSet d k v).map Prod.fst =
      if d.any (fun p => decide (p.1 = k)) = true then d.map Prod.fst
      else d.map Prod.fst ++ [k] := by
  unfold pyDictSet
  by_cases hc : d.any (fun p => decide (p.1 = k)) = true
  · rw [if_pos hc, if_pos hc, List.map_map]
    congr 1
    funext p
    by_cases hp : p.1 = k
    · simp [hp]
    · simp [hp]
  · rw [if_neg hc, if_neg hc]
    simp

theorem nodup_keys_pyDictSet (d : List (Pk × ℤ)) (k : Pk) (v : ℤ)
    (h : (d.map Prod.fst).Nodup) : ((pyDictSet d k v).map Prod.fst).Nodup := by
  rw [keys_pyDictSet]
  by_cases hc : d.any (fun p => decide (p.1 = k)) = true
  · rw [if_pos hc]
    exact h
  · rw [if_neg hc]
    rw [List.nodup_append]
    refine ⟨h, List.nodup_singleton k, ?_⟩
    intro a ha hb
    have hak : a = k := List.mem_singleton.mp hb
    subst hak
    obtain ⟨p, hp, hpk⟩ := List.mem_map.mp ha
    exact hc (List.any_eq_true.mpr ⟨p, hp, decide_eq_true hpk⟩)

theorem nodup_keys_buildDictFrom :
    ∀ (l d : List (Pk × ℤ)), (d.map Prod.fst).Nodup →
      ((buildDictFrom d l).map Prod.fst).Nodup := by
  intro l
  induction l with
  | nil => intro d h; exact h
  | cons p t ih =>
      intro d h
      exact ih (pyDictSet d p.1 p.2) (nodup_keys_pyDictSet d p.1 p.2 h)

theorem nodup_keys_buildDict (l : List (Pk × ℤ)) : ((buildDict l).map Prod.fst).Nodup :=
  nodup_keys_buildDictFrom l [] List.nodup_nil

theorem mem_iff_lookupPy :
    ∀ (d : List (Pk × ℤ)), (d.map Prod.fst).Nodup →
      ∀ (k : Pk) (v : ℤ), (k, v) ∈ d ↔ lookupPy d k = some v := by
  intro d
  induction d with
  | nil => intro _ k v; simp [lookupPy]
  | cons p t ih =>
      intro h k v
      rw [List.map_cons, List.nodup_cons] at h
      by_cases hp : p.1 = k
      · simp only [lookupPy, if_pos hp, List.mem_cons, Option.some.injEq]
        constructor
        · intro h1
          rcases h1 with h1 | h1
          · rw [← h1]
          · exact absurd (hp ▸ List.mem_map_of_mem Prod.fst h1) h.1
        · intro h1
          left
          have : p = (p.1, p.2) := rfl
          rw [this, hp, h1]
      · simp only [lookupPy, if_neg hp, List.mem_cons]
        rw [← ih h.2 k v]
        constructor
        · intro h1
          rcases h1 with h1 | h1
          · exact absurd (congrArg Prod.fst h1).symm hp
          · exact h1
        · exact Or.inr

theorem lastLookup_isSome_iff :
    ∀ (l : List (Pk × ℤ)) (k : Pk), (lastLookup l k).isSome ↔ k ∈ l.map Prod.fst := by
  intro l
  induction l with
  | nil => intro k; simp [lastLookup]
  | cons p t ih =>
      intro k
      simp only [lastLookup, List.map_cons, List.mem_cons]
      cases hlt : lastLookup t k with
      | some v =>
          simp only [Option.isSome_some, true_iff]
          exact Or.inr ((ih k).mp (by rw [hlt]; rfl))
      | none =>
          by_cases hp : p.1 = k
          · simp [if_pos hp, hp]
          · simp only [if_neg hp, Option.isSome_none, Bool.false_eq_true, false_iff]
            intro hmem
            rcases hmem with hmem | hmem
            · exact hp hmem.symm
            · have := (ih k).mpr hmem
              rw [hlt] at this
              exact Bool.noConfusion this

theorem lookupPy_buildDictFrom :
    ∀ (l d : List (Pk × ℤ)) (k : Pk),
      lookupPy (buildDictFrom d l) k =
        match lastLookup l k with
        | some v => some v
        | none => lookupPy d k := by
  intro l
  induction l with
  | nil => intro d k; rfl
  | cons p t ih =>
      intro d k
      rw [show buildDictFrom d (p :: t) = buildDictFrom (pyDictSet d p.1 p.2) t from rfl, ih]
      cases hlt : lastLookup t k with
      | some v => simp [lastLookup, hlt]
      | none =>
          simp only [lastLookup, hlt]
          rw [lookupPy_pyDictSet]
          by_cases hp : p.1 = k
          · rw [if_pos hp.symm, if_pos hp]
          · rw [if_neg (fun h : k = p.1 => hp h.symm), if_neg hp]

theorem lookupPy_buildDict (l : List (Pk × ℤ)) (k : Pk) :
    lookupPy (buildDict l) k = lastLookup l k := by
  rw [buildDict, lookupPy_buildDictFrom]
  cases hlt : lastLookup l k with
  | some v => rfl
  | none => rfl

theorem checkKeys_ok_true_iff :
    ∀ (ld cd : List (Pk × ℤ)),
      checkKeys ld cd = .ok true ↔ ∀ p ∈ ld, lookupPy cd p.1 = some p.2 := by
  intro ld
  induction ld with
  | nil => intro cd; simp [checkKeys]
  | cons p rest ih =>
      intro cd
      simp only [checkKeys]
      cases hc : lookupPy cd p.1 with
      | none =>
          simp only [List.forall_mem_cons, hc]
          constructor
          · intro h1
            exact Except.noConfusion h1
          · intro h1
            exact Option.noConfusion h1.1
      | some w =>
          change (if p.2 ≠ w then Except.ok false else checkKeys rest cd) = Except.ok true ↔
            ∀ q ∈ p :: rest, lookupPy cd q.1 = some q.2
          by_cases hv : p.2 = w
          · rw [if_neg (not_not_intro hv)]
            simp only [List.forall_mem_cons, hc, hv, ih cd, Option.some.injEq]
            tauto
          · rw [if_pos hv]
            simp only [List.forall_mem_cons, hc, Option.some.injEq]
            constructor
            · intro h1
              exact absurd (Except.ok.inj h1) Bool.false_ne_true
            · intro h1
              exact absurd h1.1.symm hv

theorem buildMapsAux_ok :
    ∀ (ks : List Pk) (vs : List ℤ) (cs : List Pk) (ws : List ℤ) (ld cd : List (Pk × ℤ)),
      ks.length = vs.length → ks.length = cs.length → ks.length = ws.length →
      buildMapsAux ks vs cs ws ld cd =
        .ok (buildDictFrom ld (ks.zip vs), buildDictFrom cd (cs.zip ws)) := by
  intro ks
  induction ks with
  | nil =>
      intro vs cs ws ld cd _ h2 _
      have hcs : cs = [] := List.length_eq_zero.mp h2.symm
      subst hcs
      rfl
  | cons k ks ih =>
      intro vs cs ws ld cd h1 h2 h3
      cases vs with
      | nil => simp at h1
      | cons v vs =>
          cases cs with
          | nil => simp at h2
          | cons c cs =>
              cases ws with
              | nil => simp at h3
              | cons w ws =>
                  simp only [buildMapsAux]
                  rw [ih vs cs ws (pyDictSet ld k v) (pyDictSet cd c w)
                    (by simpa using h1) (by simpa using h2) (by simpa using h3)]
                  rfl

/-- Claim C7 as amended: the comparison succeeds (returns true) exactly when
the lists have equal length and the chain's key→value mapping (built with
Python's last-wins dict insertion) agrees with the submitted mapping on every
submitted key; a differing value returns false, but a submitted key missing
from the chain's recorded keys raises KeyError rather than returning false
(`wEqual_missing_key_raises`). -/
theorem wEqual_true_iff_maps_agree (lk ck : List Pk) (lv cv : List ℤ)
    (hlv : lv.length = lk.length) (hcv : cv.length = ck.length) :
    wEqual lk lv ck cv = .ok true ↔
      (lk.length = ck.length ∧
        ∀ k ∈ lk, lastLookup (ck.zip cv) k = lastLookup (lk.zip lv) k) := by
  unfold wEqual
  by_cases hl : lk.length = ck.length
  · rw [if_neg (not_not_intro hl), buildMapsAux_ok lk lv ck cv [] [] hlv.symm hl
      (by rw [hl, hcv])]
    change checkKeys (buildDict (lk.zip lv)) (buildDict (ck.zip cv)) = Except.ok true ↔ _
    rw [checkKeys_ok_true_iff]
    constructor
    · intro hall
      refine ⟨hl, ?_⟩
      intro k hk
      have hkmem : k ∈ (lk.zip lv).map Prod.fst := by
        rw [List.map_fst_zip lk lv (le_of_eq hlv.symm)]
        exact hk
      have hsome := (lastLookup_isSome_iff (lk.zip lv) k).mpr hkmem
      obtain ⟨v, hv⟩ := Option.isSome_iff_exists.mp hsome
      have hmem : (k, v) ∈ buildDict (lk.zip lv) := by
        rw [mem_iff_lookupPy (buildDict (lk.zip lv)) (nodup_keys_buildDict _) k v,
          lookupPy_buildDict]
        exact hv
      have hck := hall (k, v) hmem
      rw [lookupPy_buildDict] at hck
      rw [hck, hv]
    · rintro ⟨-, hagree⟩
      intro p hp
      have hlook := (mem_iff_lookupPy (buildDict (lk.zip lv)) (nodup_keys_buildDict _)
        p.1 p.2).mp hp
      rw [lookupPy_buildDict] at hlook
      have hpk : p.1 ∈ lk := by
        have hm : p.1 ∈ (lk.zip lv).map Prod.fst :=
          (lastLookup_isSome_iff (lk.zip lv) p.1).mp (by rw [hlook]; rfl)
        rwa [List.map_fst_zip lk lv (le_of_eq hlv.symm)] at hm
      rw [lookupPy_buildDict, hagree p.1 hpk, hlook]
  · rw [if_pos hl]
    simp only [hl, false_and, iff_false]
    intro h1
    exact Bool.noConfusion (Except.ok.inj h1)

/-- Witness for `wEqual_true_iff_maps_agree`: the same mapping submitted and
recorded in opposite orders compares equal. -/
theorem wEqual_true_iff_maps_agree_apply :
    wEqual ["a", "b"] [1, 2] ["b", "a"] [2, 1] = .ok true :=
  (wEqual_true_iff_maps_agree ["a", "b"] ["b", "a"] [1, 2] [2, 1] rfl rfl).mpr
    (by
      refine ⟨rfl, ?_⟩
      intro k hk
      fin_cases hk <;> rfl)
